import Mathlib

/-!
Verification development for the Arduino digital delay generator (DG8.ino).

The program keeps two fixed 10-slot arrays, `Delays` (unsigned 16-bit tick
offsets) and `DOut` (16-bit output patterns), an active count `_imax`, and a
cursor `i` walked by the timer-1 compare-match interrupt.  The foreground
`loop()` arms the external INT0 trigger, busy-waits until `i` reaches
`_imax`, stops the timer and re-arms.

Shallow embedding used here:

* C arrays are modelled as total functions `Int → Nat` (cell index to the
  16-bit value stored there).  The `Int` index exposes the source's
  out-of-bounds accesses (`DOut[j-1]` at `j = 0`, `Delays[k+1]` at
  `k = _imax`, writes at slot 10) as reads/writes of cells outside 0..9;
  cells outside that window stand for the adjacent zero-initialised memory.
* AVR machine integers: `unsigned int` and `short int` are 16 bits,
  `int` is 16 bits, `unsigned long` is 32 bits.  Wrap-around is written
  explicitly with `% 65536` / `% 4294967296`; signed views are decoded with
  `toInt16` / `wrap16`.
* AVR `float`/`double` are 32-bit IEEE; they are idealised here as exact
  rationals (`ℚ`).  Every concrete input used in a theorem below keeps all
  intermediate values exactly representable or far from any rounding
  boundary, so the idealisation agrees with the hardware on those inputs.
* The hardware (timer 1, PORTD, INT0 masking) is modelled as registers in
  the machine state with a per-tick small-step function.
-/

namespace DG8

/-- Arduino clock rate in kHz (`#define clock 16000`). -/
def clock : Nat := 16000

/-- Trigger offset in ticks (`#define TimerOffset 58`). -/
def TimerOffset : Nat := 58

/-- Decode an unsigned 16-bit cell value as the AVR `int`/`short` it stores
(two's complement). -/
def toInt16 (n : Nat) : Int :=
  if n % 65536 < 32768 then ((n % 65536 : Nat) : Int) else ((n % 65536 : Nat) : Int) - 65536

/-- Wrap an integer into the signed 16-bit range, the effect of AVR `int`
arithmetic overflowing (two's-complement wrap). -/
def wrap16 (x : Int) : Int := (x + 32768) % 65536 - 32768

/-- Decode a byte as the signed AVR `char` it stores. -/
def signedChar (c : Nat) : Int :=
  if c % 256 < 128 then ((c % 256 : Nat) : Int) else ((c % 256 : Nat) : Int) - 256

/-- `float TicksToMicros(int ticks) { return (float)(ticks + TimerOffset) * 1000.0/clock; }`
The argument is the value of the 16-bit `int` parameter; the addition
`ticks + TimerOffset` is 16-bit `int` arithmetic (hence `wrap16`); the float
arithmetic is idealised as exact rational arithmetic. -/
def TicksToMicros (ticks : Int) : ℚ :=
  ((wrap16 (ticks + TimerOffset) : Int) : ℚ) * 1000 / (clock : ℚ)

/-- The C cast `(unsigned long)` applied to a (nonnegative) float: truncation
toward zero, defined only for values in `[0, 2^32)` — outside that window the
cast is undefined behaviour, returned as `none`. -/
def ulongCast (x : ℚ) : Option Nat :=
  if 0 ≤ x ∧ x < 4294967296 then some (Int.toNat ⌊x⌋) else none

/-- `unsigned long MicrosToTicks(float micro) { return (unsigned long)(micro * clock/1000.0 +0.5) - TimerOffset; }`
The subtraction of `TimerOffset` is unsigned 32-bit arithmetic and therefore
wraps modulo `2^32`.  No clamping of any kind is performed. -/
def MicrosToTicks (micro : ℚ) : Option Nat :=
  (ulongCast (micro * (clock : ℚ) / 1000 + 1/2)).map
    (fun v => (v + 4294967296 - TimerOffset) % 4294967296)

/-- Round half up, the spec's `round(·)` (§4.1): the code realises it as
`(unsigned long)(x + 0.5)` for nonnegative `x`. -/
def roundHalfUp (x : ℚ) : Int := ⌊x + 1/2⌋

/-- The global state: the two delay arrays, the active count, the interrupt
cursor, and the hardware registers touched by the program. -/
structure DG where
  /-- `unsigned int Delays[10]` (plus adjacent memory at other indices). -/
  delays : Int → Nat
  /-- `short int DOut[10]` (plus adjacent memory at other indices). -/
  dout : Int → Nat
  /-- `short int _imax` — number of active delays. -/
  imax : Int
  /-- `volatile short int i` — cursor for delays. -/
  i : Int
  /-- Timer-1 counter register TCNT1 (16 bits). -/
  tcnt1 : Nat
  /-- Timer-1 compare register OCR1A (16 bits). -/
  ocr1a : Nat
  /-- TCCR1B clock-select bit: `true` iff timer 1 is running. -/
  timerOn : Bool
  /-- EIMSK bit INT0: `true` iff the external trigger interrupt is enabled. -/
  eimsk : Bool
  /-- PORTD output register (8 bits). -/
  portd : Nat

/-- `while (_ldelay > Delays[j]) {j++;}` — the linear scan of `SetDelay`,
with explicit fuel.  Fuel 11 covers indices 0..10; past index 10 the source
reads beyond both arrays (undefined behaviour), but every stop at an index
`≥ _imax` is clipped to `_imax` by the line `if (j > _imax) j = _imax;`, so
for `_imax ≤ 10` the cut-off does not affect the state that results. -/
def scanPos (delays : Int → Nat) (ld : Nat) : Nat → Nat → Nat
  | 0, j => j
  | fuel + 1, j => if ld > delays (j : Int) then scanPos delays ld fuel (j + 1) else j

/-- The insertion index of `SetDelay`: the scan result clipped to `_imax`. -/
def insertPos (s : DG) (ld : Nat) : Int :=
  let j0 : Nat := scanPos s.delays ld 11 0
  if (j0 : Int) > s.imax then s.imax else (j0 : Int)

/-- `for (k=hi; k>=lo; k--) arr[k] = arr[k-1];` — the descending
make-space loop of `SetDelay`, iterated with fuel `(hi - lo + 1).toNat`. -/
def shiftUpLoop (arr : Int → Nat) (hi : Int) : Nat → (Int → Nat)
  | 0 => arr
  | n + 1 => shiftUpLoop (Function.update arr hi (arr (hi - 1))) (hi - 1) n

/-- `for (k=lo; k<=hi; k++) arr[k] = arr[k+1];` — the ascending close-gap
loop of `ClearDelay`, iterated with fuel `(hi - lo + 1).toNat`. -/
def shiftDownLoop (arr : Int → Nat) (lo : Int) : Nat → (Int → Nat)
  | 0 => arr
  | n + 1 => shiftDownLoop (Function.update arr lo (arr (lo + 1))) (lo + 1) n

/-- `memset(arr, 0, 9)` on an array of 16-bit cells (AVR is little-endian):
cells 0..3 are zeroed and cell 4 keeps only its high byte. -/
def memset9 (arr : Int → Nat) : Int → Nat :=
  fun k =>
    if 0 ≤ k ∧ k ≤ 3 then 0
    else if k = 4 then arr 4 % 65536 / 256 * 256
    else arr k

/-- The second argument of the `A` command: either `B` followed by five
0/1 characters (bits 7 down to 3), or an integer for `atoi`. -/
inductive DoutArg where
  | bin (b7 b6 b5 b4 b3 : Bool)
  | num (n : Int)

/-- Value of `_dout` computed from an explicit second argument:
`for (k=7; k>=3; k--) _dout |= (*(++arg) != '0') << k;` for the binary form,
`_dout += atoi(arg)` (from `_dout = 0`) for the integer form, the latter as
its 16-bit `short` representation. -/
def doutVal : DoutArg → Nat
  | .bin b7 b6 b5 b4 b3 =>
      (cond b7 128 0) ||| (cond b6 64 0) ||| (cond b5 32 0) ||| (cond b4 16 0) ||| (cond b3 8 0)
  | .num n => (n % 65536).toNat

/-- `void SetDelay()`, lines 167–198, after the serial layer has produced the
new delay in counter ticks (`unsigned long _ldelay = MicrosToTicks(atof(arg))`)
and the optional second argument.  Mirrors the source statement by statement:
scan for the position, clip it, shift `Delays` up and insert `_ldelay`
(truncated to the 16-bit cell), compute `_dout` (for a missing second argument
`_dout = 255 - DOut[j-1]` in 16-bit arithmetic — an out-of-bounds read when
`j = 0`), shift `DOut` up, set the D2 pull-up bit, insert, and increment
`_imax`.  No capacity check is performed anywhere. -/
def SetDelayTicks (s : DG) (ld : Nat) (arg2 : Option DoutArg) : DG :=
  let j : Int := insertPos s ld
  let delays1 := Function.update (shiftUpLoop s.delays s.imax (s.imax - j + 1).toNat) j (ld % 65536)
  let d : Nat :=
    match arg2 with
    | some a => doutVal a
    | none => (255 + 65536 - s.dout (j - 1) % 65536) % 65536
  let dout1 := Function.update (shiftUpLoop s.dout s.imax (s.imax - j + 1).toNat) j (d ||| 4)
  { s with delays := delays1, dout := dout1, imax := s.imax + 1 }

/-- `SetDelay` from the microsecond argument: the tick conversion composed
with the insertion (none when the float-to-unsigned cast is undefined). -/
def SetDelay (s : DG) (micro : ℚ) (arg2 : Option DoutArg) : Option DG :=
  (MicrosToTicks micro).map (fun ld => SetDelayTicks s ld arg2)

/-- `void ClearDelay()`, lines 143–165.  With an argument byte `c`:
`short a = (char)*arg - 65;` and, if `a` is in range, the ascending shift
`for (k=a; k<=_imax; k++) { Delays[k] = Delays[k+1]; DOut[k] = DOut[k+1]; }`
followed by `_imax--`; out of range only prints "Not in range".  With no
argument: `memset(DOut,0,9); memset(Delays,0,9); _imax = 0;`. -/
def ClearDelay (s : DG) (arg : Option Nat) : DG :=
  match arg with
  | some c =>
      let a : Int := signedChar c - 65
      if a < s.imax ∧ 0 ≤ a then
        { s with
          delays := shiftDownLoop s.delays a (s.imax - a + 1).toNat
          dout := shiftDownLoop s.dout a (s.imax - a + 1).toNat
          imax := s.imax - 1 }
      else s
  | none => { s with delays := memset9 s.delays, dout := memset9 s.dout, imax := 0 }

/-- The EEPROM, at 2-byte granularity: byte position of a write to the 16-bit
value written there.  `EEPROM_writeAnything`/`EEPROM_readAnything` (external
library) move `sizeof` bytes verbatim; every access the program makes is a
2-byte access at the positions 0, 2, 4, …, so a map from byte position to
16-bit word is a faithful view of the store. -/
def saveLoop (s : DG) (rom : Nat → Nat) (j : Int) (pos : Nat) : Nat → (Nat → Nat)
  | 0 => rom
  | n + 1 =>
      saveLoop s
        (Function.update (Function.update rom pos (s.delays j % 65536)) (pos + 2) (s.dout j % 65536))
        (j + 1) (pos + 4) n

/-- `void SaveDelays()`, lines 200–209: write `_imax` at position 0, then for
each active `j` the pair `Delays[j]`, `DOut[j]` at positions `2+4j`, `4+4j`. -/
def SaveDelays (s : DG) (rom : Nat → Nat) : Nat → Nat :=
  saveLoop s (Function.update rom 0 (((s.imax % 65536).toNat))) 0 2 s.imax.toNat

/-- The read-back loop of `LoadDelays`. -/
def loadLoop (rom : Nat → Nat) (j : Int) (pos : Nat) (s : DG) : Nat → DG
  | 0 => s
  | n + 1 =>
      loadLoop rom (j + 1) (pos + 4)
        { s with
          delays := Function.update s.delays j (rom pos % 65536)
          dout := Function.update s.dout j (rom (pos + 2) % 65536) } n

/-- `void LoadDelays()`, lines 211–220: read `_imax` (a signed short) from
position 0, then fill `Delays[j]`, `DOut[j]` from positions `2+4j`, `4+4j`. -/
def LoadDelays (s : DG) (rom : Nat → Nat) : DG :=
  let im : Int := toInt16 (rom 0)
  loadLoop rom 0 2 { s with imax := im } im.toNat

/-- `ISR(TIMER1_COMPA_vect)`, lines 108–117:
`PORTD = DOut[i]; OCR1A = Delays[++i];` — write the current output pattern
(PORTD keeps the low byte of the 16-bit `short`), increment the cursor, and
unconditionally load the compare register with the next array cell. -/
def timerCompareISR (m : DG) : DG :=
  { m with portd := m.dout m.i % 256, i := m.i + 1, ocr1a := m.delays (m.i + 1) % 65536 }

/-- `ISR(INT0_vect)`, lines 119–124: `EIMSK = 0; TCCR1B = B00000001;` —
mask further trigger edges and start timer 1. -/
def int0ISR (m : DG) : DG := { m with eimsk := false, timerOn := true }

/-- A trigger edge on pin D2: the INT0 handler runs only while the interrupt
is enabled; a masked edge has no effect.  (The pending-edge latch EIFR can be
ignored because `loop()` clears it, `EIFR = 1`, before every re-enable, so a
latched mid-sequence edge is never serviced.) -/
def triggerEdge (m : DG) : DG := if m.eimsk then int0ISR m else m

/-- One tick of timer 1: the counter increments (mod 2^16) and the
compare-match interrupt fires when it reaches OCR1A.  A stopped timer
(`TCCR1B = 0`) does not count. -/
def timerTick (m : DG) : DG :=
  if m.timerOn then
    let c := (m.tcnt1 + 1) % 65536
    if c = m.ocr1a then timerCompareISR { m with tcnt1 := c }
    else { m with tcnt1 := c }
  else m

/-- The foreground `loop()` (lines 95–105) as observed between ticks: while
`i < _imax` it busy-waits; once the sequence is complete it stops the timer
(`TCCR1B = 0`); on the following pass it re-arms — `TCNT1 = 0; i = 0;
OCR1A = Delays[0]; EIFR = 1; EIMSK = B00000001;`. -/
def foregroundStep (m : DG) : DG :=
  if m.i < m.imax then m
  else if m.timerOn then { m with timerOn := false }
  else { m with tcnt1 := 0, i := 0, ocr1a := m.delays 0 % 65536, eimsk := true }

/-- One simulated hardware tick followed by the foreground's reaction. -/
def step (m : DG) : DG := foregroundStep (timerTick m)

/-- Iterated steps. -/
def stepIter : Nat → DG → DG
  | 0, m => m
  | n + 1, m => stepIter n (step m)

/-- The output-line trace: the list of `(tick, PORTD)` pairs at which the
output register changes during the next `n` ticks, `t` being the tick count
already elapsed. -/
def portdTrace (m : DG) (t : Nat) : Nat → List (Nat × Nat)
  | 0 => []
  | n + 1 =>
      let m1 := step m
      (if m1.portd = m.portd then [] else [(t + 1, m1.portd)]) ++ portdTrace m1 (t + 1) n

/-- `unsigned int Delays[] = {13, 75, 149, 228, 0,0,0,0,0,0};` — the built-in
example schedule (cells outside 0..9 stand for adjacent zeroed memory). -/
def delays0 : Int → Nat :=
  fun k => if k = 0 then 13 else if k = 1 then 75 else if k = 2 then 149 else if k = 3 then 228 else 0

/-- `short int DOut[] = {B11111000, B00000000, B11111000, B00000000, 0,0,0,0,0,0};` -/
def dout0 : Int → Nat :=
  fun k => if k = 0 then 248 else if k = 1 then 0 else if k = 2 then 248 else if k = 3 then 0 else 0

/-- The machine as armed by `setup()` + the first pass of `loop()`:
example schedule loaded, `_imax = 4`, cursor reset, `OCR1A = Delays[0]`,
trigger enabled, timer stopped, `PORTD = B00000100` (the D2 pull-up). -/
def armed0 : DG :=
  { delays := delays0, dout := dout0, imax := 4, i := 0, tcnt1 := 0, ocr1a := 13,
    timerOn := false, eimsk := true, portd := 4 }

/-- The armed machine right after a trigger edge at tick 0. -/
def run0 : DG := triggerEdge armed0

/-- The machine 76 ticks into the example run (entries 13 and 75 fired). -/
def mid76 : DG :=
  { delays := delays0, dout := dout0, imax := 4, i := 2, tcnt1 := 76, ocr1a := 149,
    timerOn := true, eimsk := false, portd := 0 }

/-- The machine 152 ticks into the example run (entry 149 has also fired). -/
def mid152 : DG :=
  { delays := delays0, dout := dout0, imax := 4, i := 3, tcnt1 := 152, ocr1a := 228,
    timerOn := true, eimsk := false, portd := 248 }

/-- The machine 228 ticks into the example run: all four entries fired, the
cursor reached `_imax`, the foreground loop has stopped the timer.  Note
`ocr1a = 0 = Delays[4]`: the final interrupt still reprogrammed OCR1A. -/
def done228 : DG :=
  { delays := delays0, dout := dout0, imax := 4, i := 4, tcnt1 := 228, ocr1a := 0,
    timerOn := false, eimsk := false, portd := 0 }

/-- The active cells `f 0, …, f (n-1)` are non-decreasing. -/
def SortedFn (f : Int → Nat) (n : Int) : Prop :=
  ∀ k : Int, 0 ≤ k → k + 1 < n → f k ≤ f (k + 1)

/-- The active cells `f 0, …, f (n-1)` are strictly ascending. -/
def StrictFn (f : Int → Nat) (n : Int) : Prop :=
  ∀ k : Int, 0 ≤ k → k + 1 < n → f k < f (k + 1)

/-- A delay-list mutation issued from the command layer. -/
inductive Op where
  | setd (ld : Nat) (arg2 : Option DoutArg)
  | clear (arg : Option Nat)

/-- Apply one mutation. -/
def applyOp (s : DG) : Op → DG
  | .setd ld arg2 => SetDelayTicks s ld arg2
  | .clear arg => ClearDelay s arg

/-- Run a sequence of mutations, head first. -/
def runOps (s : DG) : List Op → DG
  | [] => s
  | op :: rest => runOps (applyOp s op) rest

/-- A run of mutations is guarded when every insert carries a tick value
representable in the 16-bit timer range and is issued while the list still
has a free slot.  (The source checks neither: an insert of a value `≥ 2^16`
is stored truncated, and an insert into a full list writes past the arrays —
see the theorems on claims five and six.) -/
def Guarded (s : DG) : List Op → Prop
  | [] => True
  | .setd ld arg2 :: rest => ld < 65536 ∧ s.imax < 10 ∧ Guarded (SetDelayTicks s ld arg2) rest
  | .clear arg :: rest => Guarded (ClearDelay s arg) rest

/-- List part of the spec's ordering invariant (§8), in its provable form:
active tick offsets non-decreasing, count within capacity. -/
def ListInv (s : DG) : Prop :=
  SortedFn s.delays s.imax ∧ 0 ≤ s.imax ∧ s.imax ≤ 10

/-- Trigger-arbiter invariant: whenever timer 1 is running, the external
trigger interrupt is masked. -/
def ArmInv (m : DG) : Prop := m.timerOn = true → m.eimsk = false

/-- A full list: ten active entries with ticks 100, 200, …, 1000. -/
def full10 : DG :=
  { delays := fun k => if 0 ≤ k ∧ k < 10 then 100 * (k.toNat + 1) else 0,
    dout := fun _ => 0, imax := 10, i := 0, tcnt1 := 0, ocr1a := 0,
    timerOn := false, eimsk := false, portd := 4 }

/-! ### Closed forms for the array loops -/

theorem shiftUpLoop_apply (n : Nat) : ∀ (arr : Int → Nat) (hi k : Int),
    shiftUpLoop arr hi n k = if hi - n < k ∧ k ≤ hi then arr (k - 1) else arr k := by
  induction n with
  | zero =>
    intro arr hi k
    simp only [shiftUpLoop]
    rw [if_neg (by omega)]
  | succ n ih =>
    intro arr hi k
    rw [shiftUpLoop, ih]
    by_cases h1 : hi - 1 - (n : Int) < k ∧ k ≤ hi - 1
    · rw [if_pos h1, Function.update_apply, if_neg (by omega), if_pos (by push_cast; omega)]
    · rw [if_neg h1, Function.update_apply]
      by_cases h2 : k = hi
      · subst h2
        rw [if_pos rfl, if_pos (by push_cast; omega)]
      · rw [if_neg h2, if_neg (by push_cast; omega)]

theorem shiftDownLoop_apply (n : Nat) : ∀ (arr : Int → Nat) (lo k : Int),
    shiftDownLoop arr lo n k = if lo ≤ k ∧ k < lo + n then arr (k + 1) else arr k := by
  induction n with
  | zero =>
    intro arr lo k
    simp only [shiftDownLoop]
    rw [if_neg (by omega)]
  | succ n ih =>
    intro arr lo k
    rw [shiftDownLoop, ih]
    by_cases h1 : lo + 1 ≤ k ∧ k < lo + 1 + (n : Int)
    · rw [if_pos h1, Function.update_apply, if_neg (by omega), if_pos (by push_cast; omega)]
    · rw [if_neg h1, Function.update_apply]
      by_cases h2 : k = lo
      · subst h2
        rw [if_pos rfl, if_pos (by push_cast; omega)]
      · rw [if_neg h2, if_neg (by push_cast; omega)]

/-! ### Facts about the insertion scan -/

theorem scanPos_ge (d : Int → Nat) (ld : Nat) :
    ∀ fuel j, j ≤ scanPos d ld fuel j := by
  intro fuel
  induction fuel with
  | zero => intro j; exact Nat.le_refl j
  | succ n ih =>
    intro j
    rw [scanPos]
    by_cases h : ld > d (j : Int)
    · rw [if_pos h]; exact Nat.le_trans (Nat.le_succ j) (ih (j + 1))
    · rw [if_neg h]

theorem scanPos_le (d : Int → Nat) (ld : Nat) :
    ∀ fuel j, scanPos d ld fuel j ≤ j + fuel := by
  intro fuel
  induction fuel with
  | zero => intro j; exact Nat.le_refl j
  | succ n ih =>
    intro j
    rw [scanPos]
    by_cases h : ld > d (j : Int)
    · rw [if_pos h]; exact Nat.le_trans (ih (j + 1)) (by omega)
    · rw [if_neg h]; omega

theorem scanPos_passed (d : Int → Nat) (ld : Nat) :
    ∀ fuel j k, j ≤ k → k < scanPos d ld fuel j → d (k : Int) < ld := by
  intro fuel
  induction fuel with
  | zero =>
    intro j k hjk hk
    have h0 : scanPos d ld 0 j = j := rfl
    omega
  | succ n ih =>
    intro j k hjk hk
    rw [scanPos] at hk
    by_cases h : ld > d (j : Int)
    · rw [if_pos h] at hk
      rcases Nat.eq_or_lt_of_le hjk with he | hlt
      · subst he; exact h
      · exact ih (j + 1) k hlt hk
    · rw [if_neg h] at hk
      omega

theorem scanPos_stop (d : Int → Nat) (ld : Nat) :
    ∀ fuel j, scanPos d ld fuel j < j + fuel → ld ≤ d ((scanPos d ld fuel j : Nat) : Int) := by
  intro fuel
  induction fuel with
  | zero =>
    intro j h
    have h0 : scanPos d ld 0 j = j := rfl
    omega
  | succ n ih =>
    intro j h
    rw [scanPos] at h ⊢
    by_cases hc : ld > d (j : Int)
    · rw [if_pos hc] at h ⊢
      exact ih (j + 1) (by omega)
    · rw [if_neg hc] at h ⊢
      omega

theorem insertPos_nonneg (s : DG) (ld : Nat) (h : 0 ≤ s.imax) : 0 ≤ insertPos s ld := by
  unfold insertPos
  by_cases hc : ((scanPos s.delays ld 11 0 : Nat) : Int) > s.imax
  · rw [if_pos hc]; exact h
  · rw [if_neg hc]; positivity

theorem insertPos_le (s : DG) (ld : Nat) : insertPos s ld ≤ s.imax := by
  unfold insertPos
  by_cases hc : ((scanPos s.delays ld 11 0 : Nat) : Int) > s.imax
  · rw [if_pos hc]
  · rw [if_neg hc]; omega

theorem insertPos_passed (s : DG) (ld : Nat) :
    ∀ k : Int, 0 ≤ k → k < insertPos s ld → s.delays k < ld := by
  intro k hk0 hk
  have hle : insertPos s ld ≤ ((scanPos s.delays ld 11 0 : Nat) : Int) := by
    unfold insertPos
    by_cases hc : ((scanPos s.delays ld 11 0 : Nat) : Int) > s.imax
    · rw [if_pos hc]; omega
    · rw [if_neg hc]
  have hkn : (k.toNat : Int) = k := Int.toNat_of_nonneg hk0
  have : k.toNat < scanPos s.delays ld 11 0 := by omega
  have := scanPos_passed s.delays ld 11 0 k.toNat (Nat.zero_le _) this
  rwa [hkn] at this

theorem insertPos_stop (s : DG) (ld : Nat) (h10 : s.imax ≤ 10)
    (hlt : insertPos s ld < s.imax) : ld ≤ s.delays (insertPos s ld) := by
  have hform : insertPos s ld = ((scanPos s.delays ld 11 0 : Nat) : Int) := by
    unfold insertPos at hlt ⊢
    by_cases hc : ((scanPos s.delays ld 11 0 : Nat) : Int) > s.imax
    · rw [if_pos hc] at hlt; omega
    · rw [if_neg hc]
  have hsc : scanPos s.delays ld 11 0 < 0 + 11 := by omega
  have := scanPos_stop s.delays ld 11 0 hsc
  rwa [hform]

/-! ### Cell-level description of SetDelay and ClearDelay -/

theorem setd_imax (s : DG) (ld : Nat) (arg2 : Option DoutArg) :
    (SetDelayTicks s ld arg2).imax = s.imax + 1 := rfl

theorem setd_delays_apply (s : DG) (ld : Nat) (arg2 : Option DoutArg) (k : Int) :
    (SetDelayTicks s ld arg2).delays k =
      if k = insertPos s ld then ld % 65536
      else if insertPos s ld ≤ k ∧ k ≤ s.imax then s.delays (k - 1)
      else s.delays k := by
  have hj := insertPos_le s ld
  show Function.update (shiftUpLoop s.delays s.imax (s.imax - insertPos s ld + 1).toNat)
      (insertPos s ld) (ld % 65536) k = _
  rw [Function.update_apply, shiftUpLoop_apply]
  have hn : ((s.imax - insertPos s ld + 1).toNat : Int) = s.imax - insertPos s ld + 1 :=
    Int.toNat_of_nonneg (by omega)
  by_cases h1 : k = insertPos s ld
  · rw [if_pos h1, if_pos h1]
  · rw [if_neg h1, if_neg h1]
    by_cases h2 : insertPos s ld ≤ k ∧ k ≤ s.imax
    · rw [if_pos (by omega), if_pos h2]
    · rw [if_neg (by omega), if_neg h2]

theorem setd_dout_apply (s : DG) (ld : Nat) (arg2 : Option DoutArg) (k : Int) :
    (SetDelayTicks s ld arg2).dout k =
      if k = insertPos s ld then
        (match arg2 with
         | some a => doutVal a
         | none => (255 + 65536 - s.dout (insertPos s ld - 1) % 65536) % 65536) ||| 4
      else if insertPos s ld ≤ k ∧ k ≤ s.imax then s.dout (k - 1)
      else s.dout k := by
  have hj := insertPos_le s ld
  show Function.update (shiftUpLoop s.dout s.imax (s.imax - insertPos s ld + 1).toNat)
      (insertPos s ld) _ k = _
  rw [Function.update_apply, shiftUpLoop_apply]
  have hn : ((s.imax - insertPos s ld + 1).toNat : Int) = s.imax - insertPos s ld + 1 :=
    Int.toNat_of_nonneg (by omega)
  by_cases h1 : k = insertPos s ld
  · rw [if_pos h1, if_pos h1]
  · rw [if_neg h1, if_neg h1]
    by_cases h2 : insertPos s ld ≤ k ∧ k ≤ s.imax
    · rw [if_pos (by omega), if_pos h2]
    · rw [if_neg (by omega), if_neg h2]

theorem ClearDelay_some (s : DG) (c : Nat) :
    ClearDelay s (some c) =
      if signedChar c - 65 < s.imax ∧ 0 ≤ signedChar c - 65 then
        { s with
          delays := shiftDownLoop s.delays (signedChar c - 65) (s.imax - (signedChar c - 65) + 1).toNat
          dout := shiftDownLoop s.dout (signedChar c - 65) (s.imax - (signedChar c - 65) + 1).toNat
          imax := s.imax - 1 }
      else s := rfl

theorem clear_out_of_range (s : DG) (c : Nat)
    (h : ¬(signedChar c - 65 < s.imax ∧ 0 ≤ signedChar c - 65)) :
    ClearDelay s (some c) = s := by
  rw [ClearDelay_some, if_neg h]

theorem clear_in_range_imax (s : DG) (c : Nat)
    (h : signedChar c - 65 < s.imax ∧ 0 ≤ signedChar c - 65) :
    (ClearDelay s (some c)).imax = s.imax - 1 := by
  rw [ClearDelay_some, if_pos h]

theorem clear_in_range_delays (s : DG) (c : Nat)
    (h : signedChar c - 65 < s.imax ∧ 0 ≤ signedChar c - 65) (k : Int) :
    (ClearDelay s (some c)).delays k =
      if signedChar c - 65 ≤ k ∧ k ≤ s.imax then s.delays (k + 1) else s.delays k := by
  rw [ClearDelay_some, if_pos h]
  show shiftDownLoop s.delays (signedChar c - 65) (s.imax - (signedChar c - 65) + 1).toNat k = _
  rw [shiftDownLoop_apply]
  have hn : ((s.imax - (signedChar c - 65) + 1).toNat : Int) = s.imax - (signedChar c - 65) + 1 :=
    Int.toNat_of_nonneg (by omega)
  by_cases h2 : signedChar c - 65 ≤ k ∧ k ≤ s.imax
  · rw [if_pos (by omega), if_pos h2]
  · rw [if_neg (by omega), if_neg h2]

theorem clear_in_range_dout (s : DG) (c : Nat)
    (h : signedChar c - 65 < s.imax ∧ 0 ≤ signedChar c - 65) (k : Int) :
    (ClearDelay s (some c)).dout k =
      if signedChar c - 65 ≤ k ∧ k ≤ s.imax then s.dout (k + 1) else s.dout k := by
  rw [ClearDelay_some, if_pos h]
  show shiftDownLoop s.dout (signedChar c - 65) (s.imax - (signedChar c - 65) + 1).toNat k = _
  rw [shiftDownLoop_apply]
  have hn : ((s.imax - (signedChar c - 65) + 1).toNat : Int) = s.imax - (signedChar c - 65) + 1 :=
    Int.toNat_of_nonneg (by omega)
  by_cases h2 : signedChar c - 65 ≤ k ∧ k ≤ s.imax
  · rw [if_pos (by omega), if_pos h2]
  · rw [if_neg (by omega), if_neg h2]

theorem clear_none_state (s : DG) :
    ClearDelay s none =
      { s with delays := memset9 s.delays, dout := memset9 s.dout, imax := 0 } := rfl

/-! ### Preservation of the (weakened) list invariant -/

theorem setd_preserves_ListInv (s : DG) (ld : Nat) (arg2 : Option DoutArg)
    (hinv : ListInv s) (hld : ld < 65536) (hcap : s.imax < 10) :
    ListInv (SetDelayTicks s ld arg2) := by
  obtain ⟨hsort, him0, him10⟩ := hinv
  have hmod : ld % 65536 = ld := Nat.mod_eq_of_lt hld
  have hj0 : 0 ≤ insertPos s ld := insertPos_nonneg s ld him0
  have hjle : insertPos s ld ≤ s.imax := insertPos_le s ld
  refine ⟨?_, by rw [setd_imax]; omega, by rw [setd_imax]; omega⟩
  intro k hk0 hk1
  rw [setd_imax] at hk1
  rw [setd_delays_apply, setd_delays_apply, hmod]
  by_cases hkj : k = insertPos s ld
  · rw [if_pos hkj, if_neg (by omega), if_pos (by omega)]
    have hjlt : insertPos s ld < s.imax := by omega
    have hstop := insertPos_stop s ld him10 hjlt
    have he : k + 1 - 1 = insertPos s ld := by omega
    rw [he]
    exact hstop
  · rw [if_neg hkj]
    by_cases hkj1 : k + 1 = insertPos s ld
    · rw [if_neg (by omega), if_pos hkj1]
      have := insertPos_passed s ld k hk0 (by omega)
      omega
    · rw [if_neg hkj1]
      by_cases hge : insertPos s ld ≤ k
      · rw [if_pos ⟨hge, by omega⟩, if_pos ⟨by omega, by omega⟩]
        have hs := hsort (k - 1) (by omega) (by omega)
        have he : k - 1 + 1 = k := by omega
        rw [he] at hs
        have he2 : k + 1 - 1 = k := by omega
        rw [he2]
        exact hs
      · rw [if_neg (by omega), if_neg (by omega)]
        exact hsort k hk0 (by omega)

theorem clear_preserves_ListInv (s : DG) (arg : Option Nat) (hinv : ListInv s) :
    ListInv (ClearDelay s arg) := by
  obtain ⟨hsort, him0, him10⟩ := hinv
  match arg with
  | none =>
    have h0 : (ClearDelay s none).imax = 0 := rfl
    refine ⟨?_, by omega, by omega⟩
    intro k hk0 hk1
    omega
  | some c =>
    by_cases h : signedChar c - 65 < s.imax ∧ 0 ≤ signedChar c - 65
    · refine ⟨?_, ?_, ?_⟩
      · intro k hk0 hk1
        rw [clear_in_range_imax _ _ h] at hk1
        rw [clear_in_range_delays _ _ h, clear_in_range_delays _ _ h]
        by_cases hka : signedChar c - 65 ≤ k
        · rw [if_pos ⟨hka, by omega⟩, if_pos ⟨by omega, by omega⟩]
          exact hsort (k + 1) (by omega) (by omega)
        · rw [if_neg (by omega)]
          by_cases hk1a : signedChar c - 65 ≤ k + 1
          · rw [if_pos ⟨hk1a, by omega⟩]
            have h1 := hsort k hk0 (by omega)
            have h2 := hsort (k + 1) (by omega) (by omega)
            omega
          · rw [if_neg (by omega)]
            exact hsort k hk0 (by omega)
      · rw [clear_in_range_imax _ _ h]; omega
      · rw [clear_in_range_imax _ _ h]; omega
    · rw [clear_out_of_range _ _ h]
      exact ⟨hsort, him0, him10⟩

theorem guarded_runOps_ListInv (ops : List Op) :
    ∀ s : DG, ListInv s → Guarded s ops → ListInv (runOps s ops) := by
  induction ops with
  | nil => intro s h _; exact h
  | cons op rest ih =>
    intro s h hg
    match op with
    | .setd ld arg2 =>
      obtain ⟨h1, h2, h3⟩ := hg
      exact ih _ (setd_preserves_ListInv s ld arg2 h h1 h2) h3
    | .clear arg =>
      exact ih _ (clear_preserves_ListInv s arg h) hg

/-! ### Machine lemmas: arming invariant and stopped-timer stability -/

theorem timerTick_keeps_flags (m : DG) :
    (timerTick m).timerOn = m.timerOn ∧ (timerTick m).eimsk = m.eimsk ∧
    (timerTick m).imax = m.imax := by
  unfold timerTick timerCompareISR
  by_cases ht : m.timerOn
  · rw [if_pos ht]
    by_cases hc : (m.tcnt1 + 1) % 65536 = m.ocr1a
    · rw [if_pos hc]; exact ⟨rfl, rfl, rfl⟩
    · rw [if_neg hc]; exact ⟨rfl, rfl, rfl⟩
  · rw [if_neg ht]; exact ⟨rfl, rfl, rfl⟩

theorem armInv_triggerEdge (m : DG) (h : ArmInv m) : ArmInv (triggerEdge m) := by
  unfold triggerEdge int0ISR
  by_cases he : m.eimsk
  · rw [if_pos he]; intro _; rfl
  · rw [if_neg he]; exact h

theorem armInv_step (m : DG) (h : ArmInv m) : ArmInv (step m) := by
  have htt := timerTick_keeps_flags m
  rw [step]
  unfold foregroundStep
  by_cases h1 : (timerTick m).i < (timerTick m).imax
  · rw [if_pos h1]
    intro ht
    exact htt.2.1 ▸ h (htt.1 ▸ ht)
  · rw [if_neg h1]
    by_cases h2 : (timerTick m).timerOn
    · rw [if_pos h2]
      intro ht
      exact absurd ht (by simp)
    · rw [if_neg h2]
      intro ht
      exact absurd ht h2

theorem armInv_stepIter : ∀ (n : Nat) (m : DG), ArmInv m → ArmInv (stepIter n m) := by
  intro n
  induction n with
  | zero => intro m h; exact h
  | succ n ih => intro m h; exact ih (step m) (armInv_step m h)

theorem triggerEdge_masked (m : DG) (h : m.eimsk = false) : triggerEdge m = m := by
  simp [triggerEdge, h]

theorem step_stopped (m : DG) (h : m.timerOn = false) :
    (step m).portd = m.portd ∧ (step m).timerOn = false := by
  have ht : timerTick m = m := by simp [timerTick, h]
  rw [step, ht]
  unfold foregroundStep
  by_cases h1 : m.i < m.imax
  · rw [if_pos h1]; exact ⟨rfl, h⟩
  · rw [if_neg h1, if_neg (by simp [h])]
    exact ⟨rfl, h⟩

theorem stepIter_stopped : ∀ (n : Nat) (m : DG), m.timerOn = false →
    (stepIter n m).portd = m.portd ∧ (stepIter n m).timerOn = false := by
  intro n
  induction n with
  | zero => intro m h; exact ⟨rfl, h⟩
  | succ n ih =>
    intro m h
    have hs := step_stopped m h
    have := ih (step m) hs.2
    exact ⟨this.1.trans hs.1, this.2⟩

/-! ### Lemmas for the EEPROM round trip -/

theorem saveLoop_preserve (s : DG) :
    ∀ (n : Nat) (rom : Nat → Nat) (j : Int) (pos p : Nat), p < pos →
      saveLoop s rom j pos n p = rom p := by
  intro n
  induction n with
  | zero => intro rom j pos p _; rfl
  | succ n ih =>
    intro rom j pos p hp
    rw [saveLoop]
    rw [ih _ _ _ _ (by omega)]
    rw [Function.update_apply, if_neg (by omega), Function.update_apply, if_neg (by omega)]

theorem saveLoop_get (s : DG) :
    ∀ (n : Nat) (rom : Nat → Nat) (j : Int) (pos t : Nat), t < n →
      saveLoop s rom j pos n (pos + 4 * t) = s.delays (j + t) % 65536 ∧
      saveLoop s rom j pos n (pos + 4 * t + 2) = s.dout (j + t) % 65536 := by
  intro n
  induction n with
  | zero => intro rom j pos t ht; omega
  | succ n ih =>
    intro rom j pos t ht
    rw [saveLoop]
    match t with
    | 0 =>
      constructor
      · rw [saveLoop_preserve s n _ _ _ _ (by omega)]
        rw [Function.update_apply, if_neg (by omega), Function.update_apply, if_pos (by omega)]
        norm_num
      · rw [saveLoop_preserve s n _ _ _ _ (by omega)]
        rw [Function.update_apply, if_pos (by omega)]
        norm_num
    | t' + 1 =>
      have h1 : pos + 4 * (t' + 1) = (pos + 4) + 4 * t' := by omega
      have h3 : (j + 1) + (t' : Int) = j + ((t' + 1 : Nat) : Int) := by push_cast; omega
      rw [h1]
      have := ih (Function.update (Function.update rom pos (s.delays j % 65536)) (pos + 2)
        (s.dout j % 65536)) (j + 1) (pos + 4) t' (by omega)
      rw [h3] at this
      exact this

theorem loadLoop_imax : ∀ (n : Nat) (rom : Nat → Nat) (j : Int) (pos : Nat) (s : DG),
    (loadLoop rom j pos s n).imax = s.imax := by
  intro n
  induction n with
  | zero => intro rom j pos s; rfl
  | succ n ih => intro rom j pos s; rw [loadLoop, ih]

theorem loadLoop_delays : ∀ (n : Nat) (rom : Nat → Nat) (j : Int) (pos : Nat) (s : DG) (k : Int),
    (loadLoop rom j pos s n).delays k =
      if j ≤ k ∧ k < j + n then rom (pos + 4 * (k - j).toNat) % 65536 else s.delays k := by
  intro n
  induction n with
  | zero => intro rom j pos s k; rw [if_neg (by omega)]; rfl
  | succ n ih =>
    intro rom j pos s k
    rw [loadLoop, ih]
    by_cases h1 : j + 1 ≤ k ∧ k < j + 1 + (n : Int)
    · rw [if_pos h1, if_pos (by push_cast; omega)]
      have he : pos + 4 + 4 * (k - (j + 1)).toNat = pos + 4 * (k - j).toNat := by omega
      rw [he]
    · rw [if_neg h1]
      show Function.update s.delays j (rom pos % 65536) k = _
      rw [Function.update_apply]
      by_cases h2 : k = j
      · rw [if_pos h2, if_pos (by push_cast; omega)]
        have he : pos + 4 * (k - j).toNat = pos := by omega
        rw [he]
      · rw [if_neg h2, if_neg (by push_cast; omega)]

/-! ### Bit arithmetic for the default output pattern -/

theorem lor4_land248 (x : Nat) : (x ||| 4) &&& 248 = x &&& 248 := by
  apply Nat.eq_of_testBit_eq
  intro i
  rw [Nat.testBit_land, Nat.testBit_lor, Nat.testBit_land]
  by_cases h2 : i = 2
  · subst h2
    cases hx : x.testBit 2 <;> rfl
  · have h4 : (4 : Nat).testBit i = false := by
      rw [show (4 : Nat) = 2 ^ 2 by norm_num, Nat.testBit_two_pow]
      exact decide_eq_false (fun h => h2 h.symm)
    rw [h4, Bool.or_false]

theorem land248_mod256 (a : Nat) : a &&& 248 = a % 256 &&& 248 := by
  apply Nat.eq_of_testBit_eq
  intro i
  rw [Nat.testBit_land, Nat.testBit_land]
  by_cases h : i < 8
  · rw [show (256 : Nat) = 2 ^ 8 by norm_num, Nat.testBit_mod_two_pow]
    rw [decide_eq_true h, Bool.true_and]
  · have h248 : (248 : Nat).testBit i = false := by
      apply Nat.testBit_lt_two_pow
      calc (248 : Nat) < 2 ^ 8 := by norm_num
        _ ≤ 2 ^ i := Nat.pow_le_pow_right (by norm_num) (by omega)
    rw [h248, Bool.and_false, Bool.and_false]

set_option maxRecDepth 2000 in
theorem complement_byte : ∀ r : Nat, r < 256 → (255 - r) &&& 248 = 248 - (r &&& 248) := by
  decide

/-- Channel bits 3–7 of `(255 - d) | 4` computed in 16-bit arithmetic are the
bitwise complement of the channel bits of `d`. -/
theorem complement16_channel (d : Nat) (h : d < 65536) :
    (((255 + 65536 - d) % 65536) ||| 4) &&& 248 = 248 - (d % 256 &&& 248) := by
  rw [lor4_land248, land248_mod256]
  have harith : (255 + 65536 - d) % 65536 % 256 = 255 - d % 256 := by omega
  rw [harith, complement_byte (d % 256) (by omega)]

/-! ### Decomposition of the example run into kernel-checkable chunks -/

theorem stepIter_add (a b : Nat) : ∀ m : DG, stepIter (a + b) m = stepIter b (stepIter a m) := by
  induction a with
  | zero => intro m; rw [Nat.zero_add]; rfl
  | succ a ih =>
    intro m
    have h : a + 1 + b = (a + b) + 1 := by omega
    rw [h, stepIter, ih (step m)]
    rfl

set_option maxRecDepth 3000 in
theorem run0_to_76 : stepIter 76 run0 = mid76 := rfl

set_option maxRecDepth 3000 in
theorem run76_to_152 : stepIter 76 mid76 = mid152 := rfl

set_option maxRecDepth 3000 in
theorem run152_to_228 : stepIter 76 mid152 = done228 := rfl

theorem run0_to_228 : stepIter 228 run0 = done228 := by
  have h : (228 : Nat) = 76 + 76 + 76 := by norm_num
  rw [h, stepIter_add, stepIter_add, run0_to_76, run76_to_152, run152_to_228]

theorem loadLoop_dout : ∀ (n : Nat) (rom : Nat → Nat) (j : Int) (pos : Nat) (s : DG) (k : Int),
    (loadLoop rom j pos s n).dout k =
      if j ≤ k ∧ k < j + n then rom (pos + 4 * (k - j).toNat + 2) % 65536 else s.dout k := by
  intro n
  induction n with
  | zero => intro rom j pos s k; rw [if_neg (by omega)]; rfl
  | succ n ih =>
    intro rom j pos s k
    rw [loadLoop, ih]
    by_cases h1 : j + 1 ≤ k ∧ k < j + 1 + (n : Int)
    · rw [if_pos h1, if_pos (by push_cast; omega)]
      have he : pos + 4 + 4 * (k - (j + 1)).toNat = pos + 4 * (k - j).toNat := by omega
      rw [he]
    · rw [if_neg h1]
      show Function.update s.dout j (rom (pos + 2) % 65536) k = _
      rw [Function.update_apply]
      by_cases h2 : k = j
      · rw [if_pos h2, if_pos (by push_cast; omega)]
        have he : pos + 4 * (k - j).toNat + 2 = pos + 2 := by omega
        rw [he]
      · rw [if_neg h2, if_neg (by push_cast; omega)]

/-! ### Claim theorems -/

set_option maxRecDepth 4000 in
/-- C1: with the built-in example schedule `Delays = [13, 75, 149, 228]`,
output patterns `[0b11111000, 0, 0b11111000, 0]` and `_imax = 4`, a simulated
trigger at tick 0 produces exactly the output-line changes 0b11111000 at tick
13, 0 at tick 75, 0b11111000 at tick 149 and 0 at tick 228 (and none other in
the first 300 ticks); at tick 228 the cursor has reached the count and the
timer is stopped, and the output lines never change again. -/
theorem sequencer_example_trace :
    portdTrace run0 0 300 = [(13, 248), (75, 0), (149, 248), (228, 0)]
  ∧ (stepIter 228 run0).i = armed0.imax
  ∧ (stepIter 228 run0).timerOn = false
  ∧ ∀ k : Nat, (stepIter k (stepIter 228 run0)).portd = (stepIter 228 run0).portd := by
  refine ⟨by decide, ?_, ?_, ?_⟩
  · rw [run0_to_228]; rfl
  · rw [run0_to_228]; rfl
  · intro k
    exact (stepIter_stopped k (stepIter 228 run0) (by rw [run0_to_228]; rfl)).1

/-- C2 (counterexample): the compare-match handler does NOT leave the compare
register unprogrammed when the incremented cursor reaches the count.  At the
state just before the last entry fires (`i = 3`, `_imax = 4`, `OCR1A = 228`)
the handler rewrites OCR1A from 228 to `Delays[4] = 0` even though the new
cursor equals the count. -/
theorem timer_isr_reprograms_at_end :
    mid152.i + 1 = mid152.imax
  ∧ (timerCompareISR mid152).i = mid152.imax
  ∧ mid152.ocr1a = 228
  ∧ (timerCompareISR mid152).ocr1a = 0 := by decide

/-- C2 (amended): on every compare-match fire the handler (1) writes the
output pattern of the entry at the current cursor to the output lines (the
low byte of `DOut[i]`), (2) increments the cursor, and (3) unconditionally
reprograms the compare register with `Delays[cursor]` for the incremented
cursor — with no bounds check, so when the cursor has reached the count it
loads the cell one past the active region; the sequence still ends because
the foreground loop stops the timer on `cursor == count`. -/
theorem timer_isr_behavior (m : DG) :
    (timerCompareISR m).portd = m.dout m.i % 256
  ∧ (timerCompareISR m).i = m.i + 1
  ∧ (timerCompareISR m).ocr1a = m.delays (m.i + 1) % 65536 :=
  ⟨rfl, rfl, rfl⟩

/-- C3: starting from any armed state (timer stopped), after the first
trigger edge and any number of ticks, a second trigger edge arriving while
the sequence is RUNNING (timer on) is a no-op on the whole machine state —
it neither resets the cursor nor restarts the timer — and edge detection is
only ever enabled while the timer is stopped (re-arming happens only after
the foreground loop has seen the completed sequence and stopped the timer). -/
theorem no_retrigger_while_running (m0 : DG) (t : Nat) (harmed : m0.timerOn = false) :
    ((stepIter t (triggerEdge m0)).timerOn = true →
      triggerEdge (stepIter t (triggerEdge m0)) = stepIter t (triggerEdge m0))
  ∧ ((stepIter t (triggerEdge m0)).eimsk = true →
      (stepIter t (triggerEdge m0)).timerOn = false) := by
  have h0 : ArmInv m0 := by
    intro ht
    exact absurd (harmed.symm.trans ht) (by decide)
  have hinv : ArmInv (stepIter t (triggerEdge m0)) :=
    armInv_stepIter t (triggerEdge m0) (armInv_triggerEdge m0 h0)
  constructor
  · intro ht
    exact triggerEdge_masked _ (hinv ht)
  · intro he
    cases hb : (stepIter t (triggerEdge m0)).timerOn with
    | false => rfl
    | true => exact absurd (he.symm.trans (hinv hb)) (by decide)

/-- Witness for C3: the armed example machine, five ticks after the trigger. -/
theorem no_retrigger_while_running_witness :
    ((stepIter 5 (triggerEdge armed0)).timerOn = true →
      triggerEdge (stepIter 5 (triggerEdge armed0)) = stepIter 5 (triggerEdge armed0))
  ∧ ((stepIter 5 (triggerEdge armed0)).eimsk = true →
      (stepIter 5 (triggerEdge armed0)).timerOn = false) :=
  no_retrigger_while_running armed0 5 rfl

/-- C4 (evaluation at the failing input): `TicksToMicros` takes its tick
argument through a signed 16-bit `int` parameter, so the timer-representable
tick value 40000 arrives as -25536 and converts to a negative number of
microseconds (-1592.375), although the true delay for tick 40000 is
+2503.625 us.  The round trip `MicrosToTicks (TicksToMicros t) = t` is
therefore unattainable for ticks above 32767, despite the program
advertising delays up to 4092 us (tick 65414). -/
theorem ticksToMicros_negative_beyond_int16 :
    toInt16 40000 = -25536 ∧ TicksToMicros (toInt16 40000) < 0 := by
  have h1 : toInt16 40000 = -25536 := by decide
  refine ⟨h1, ?_⟩
  rw [h1]
  have hw : wrap16 (-25536 + (TimerOffset : Int)) = -25478 := by decide
  unfold TicksToMicros
  rw [hw]
  unfold clock
  push_cast
  norm_num

/-- Support for C4: on the domain the `int` parameter can faithfully carry
(`t + TimerOffset ≤ 32767`), the round trip does hold exactly. -/
theorem microsToTicks_roundTrip_int16 (t : Nat) (h : t ≤ 32709) :
    MicrosToTicks (TicksToMicros (toInt16 t)) = some t := by
  have h1 : toInt16 t = (t : Int) := by
    unfold toInt16
    rw [Nat.mod_eq_of_lt (by omega), if_pos (by omega)]
  have h2 : wrap16 ((t : Int) + TimerOffset) = (t : Int) + 58 := by
    unfold wrap16 TimerOffset
    push_cast
    omega
  rw [h1]
  unfold TicksToMicros
  rw [h2]
  unfold MicrosToTicks ulongCast clock
  have h3 : ((((t : Int) + 58 : Int) : ℚ) * 1000 / ((16000 : Nat) : ℚ)) * ((16000 : Nat) : ℚ) / 1000 + 1/2
      = (((t : Int) + 58 : Int) : ℚ) + 1/2 := by
    push_cast
    ring
  rw [h3]
  have h4 : ⌊(((t : Int) + 58 : Int) : ℚ) + 1/2⌋ = (t : Int) + 58 := by
    rw [Int.floor_eq_iff]
    constructor
    · push_cast
      norm_num
    · push_cast
      norm_num
  have h5 : (0 : ℚ) ≤ (((t : Int) + 58 : Int) : ℚ) + 1/2 := by
    push_cast
    positivity
  have h6 : (((t : Int) + 58 : Int) : ℚ) + 1/2 < 4294967296 := by
    push_cast
    have : (t : ℚ) ≤ 32709 := by exact_mod_cast h
    linarith
  rw [if_pos ⟨h5, h6⟩, Option.map_some']
  have h7 : (Int.toNat ⌊(((t : Int) + 58 : Int) : ℚ) + 1/2⌋ + 4294967296 - TimerOffset) % 4294967296
      = t := by
    rw [h4]
    unfold TimerOffset
    omega
  rw [h7]

/-- C5 (counterexample): starting from the valid built-in schedule
`[13, 75, 149, 228]`, inserting the duplicate tick value 75 yields active
ticks `[13, 75, 75, 149, 228]`: the list is no longer strictly ascending,
falsifying the claimed invariant over insert/remove sequences. -/
theorem duplicate_insert_breaks_strict_order :
    (StrictFn armed0.delays armed0.imax ∧ 0 ≤ armed0.imax ∧ armed0.imax ≤ 10)
  ∧ ¬ (StrictFn (runOps armed0 [Op.setd 75 (some (DoutArg.num 0))]).delays
        (runOps armed0 [Op.setd 75 (some (DoutArg.num 0))]).imax
      ∧ 0 ≤ (runOps armed0 [Op.setd 75 (some (DoutArg.num 0))]).imax
      ∧ (runOps armed0 [Op.setd 75 (some (DoutArg.num 0))]).imax ≤ 10) := by
  constructor
  · refine ⟨?_, by decide, by decide⟩
    intro k hk0 hk1
    have h4 : armed0.imax = 4 := rfl
    rw [h4] at hk1
    have hub : k ≤ 2 := by omega
    interval_cases k <;> decide
  · intro hcl
    have h2 := hcl.1 1 (by decide) (by decide)
    exact absurd h2 (by decide)

/-- C5 (amended): after any sequence of `SetDelay`/`ClearDelay` operations
starting from a valid (strictly ascending, within-capacity) list, in which
every insert carries a tick value below 2^16 and is issued while
`count < capacity`, the active tick offsets are non-decreasing (not
necessarily strictly: duplicates are accepted) and `0 ≤ count ≤ capacity`. -/
theorem guarded_ops_keep_order (ops : List Op) (s0 : DG)
    (h0 : StrictFn s0.delays s0.imax ∧ 0 ≤ s0.imax ∧ s0.imax ≤ 10)
    (hg : Guarded s0 ops) :
    SortedFn (runOps s0 ops).delays (runOps s0 ops).imax
  ∧ 0 ≤ (runOps s0 ops).imax ∧ (runOps s0 ops).imax ≤ 10 := by
  have hle : ListInv s0 :=
    ⟨fun k hk0 hk1 => Nat.le_of_lt (h0.1 k hk0 hk1), h0.2.1, h0.2.2⟩
  exact guarded_runOps_ListInv ops s0 hle hg

/-- Witness for C5 (amended): one guarded insert of tick 300 onto the
example schedule. -/
theorem guarded_ops_keep_order_witness :
    SortedFn (runOps armed0 [Op.setd 300 (some (DoutArg.num 0))]).delays
      (runOps armed0 [Op.setd 300 (some (DoutArg.num 0))]).imax
  ∧ 0 ≤ (runOps armed0 [Op.setd 300 (some (DoutArg.num 0))]).imax
  ∧ (runOps armed0 [Op.setd 300 (some (DoutArg.num 0))]).imax ≤ 10 :=
  guarded_ops_keep_order [Op.setd 300 (some (DoutArg.num 0))] armed0
    ⟨fun k hk0 hk1 => by
        have h4 : armed0.imax = 4 := rfl
        rw [h4] at hk1
        have hub : k ≤ 2 := by omega
        interval_cases k <;> decide,
      by decide, by decide⟩
    ⟨by decide, by decide, trivial⟩

/-- C6 (evaluation at the failing input): `SetDelay` has no capacity check:
called on a full list (`_imax = 10`) it inserts anyway — the count becomes
11, exceeding the 10-slot capacity, and the new entry is written to slot 10,
one past the end of the declared arrays.  No "list full" error exists in the
program, and the list does not remain unchanged. -/
theorem full_insert_overflows :
    full10.imax = 10
  ∧ (SetDelayTicks full10 1500 (some (DoutArg.num 5))).imax = 11
  ∧ (SetDelayTicks full10 1500 (some (DoutArg.num 5))).delays 10 = 1500 := by
  refine ⟨rfl, rfl, ?_⟩
  decide

/-- C7 (amended): when `SetDelay` is called with no output-pattern argument,
the new entry's channel bits (lines 3–7) are the bitwise complement of the
immediately preceding entry's channel bits — for insertion positions `j ≥ 1`.
When the insert lands at index 0, however, the code computes
`255 - DOut[-1]`, an out-of-bounds read of the memory cell just before the
array: the new byte is the complement of that unrelated cell (OR the D2
pull-up bit), not the claimed all-lines-low pattern. -/
theorem insert_default_pattern_complement (s : DG) (ld : Nat) :
    (1 ≤ insertPos s ld →
      (SetDelayTicks s ld none).dout (insertPos s ld) &&& 248
        = 248 - (s.dout (insertPos s ld - 1) % 256 &&& 248))
  ∧ (insertPos s ld = 0 →
      (SetDelayTicks s ld none).dout 0
        = (255 + 65536 - s.dout (-1) % 65536) % 65536 ||| 4) := by
  constructor
  · intro hj
    rw [setd_dout_apply s ld none (insertPos s ld), if_pos rfl]
    have hch := complement16_channel (s.dout (insertPos s ld - 1) % 65536)
      (Nat.mod_lt _ (by norm_num))
    rw [Nat.mod_mod_of_dvd _ (by norm_num : (256 : Nat) ∣ 65536)] at hch
    exact hch
  · intro hj
    have hd := setd_dout_apply s ld none 0
    rw [hj] at hd
    rw [if_pos rfl] at hd
    have he : (0 : Int) - 1 = -1 := by norm_num
    rw [he] at hd
    exact hd

/-- Witness for C7 (amended): inserting tick 100 into the example schedule
lands at position 2; the default pattern is the complement of entry 1's. -/
theorem insert_default_pattern_complement_witness :
    (SetDelayTicks armed0 100 none).dout (insertPos armed0 100) &&& 248
      = 248 - (armed0.dout (insertPos armed0 100 - 1) % 256 &&& 248) :=
  (insert_default_pattern_complement armed0 100).1 (by decide)

/-- C7 (counterexample): a no-pattern insert at the head of the list.  The
microsecond value 4 converts to tick 6, which sorts before `Delays[0] = 13`,
so the insert lands at index 0; the resulting channel bits are all ONES
(248 = 0b11111000, the complement of the zeroed adjacent memory cell the
code reads out of bounds), not the all-zero pattern the claim states. -/
theorem head_insert_pattern_not_low :
    MicrosToTicks 4 = some 6
  ∧ (SetDelayTicks armed0 6 none).dout 0 &&& 248 = 248
  ∧ (248 : Nat) ≠ 0 := by
  refine ⟨?_, by decide, by decide⟩
  unfold MicrosToTicks ulongCast clock TimerOffset
  have hx : (4 : ℚ) * ((16000 : Nat) : ℚ) / 1000 + 1/2 = 129/2 := by
    push_cast
    norm_num
  rw [hx]
  rw [if_pos (by constructor <;> norm_num)]
  rw [show ⌊(129/2 : ℚ)⌋ = 64 from by
    rw [Int.floor_eq_iff]
    constructor <;> norm_num]
  rw [Option.map_some']
  decide

/-- C8: `ClearDelay` with an out-of-range index (including any index on an
empty list) leaves the whole state unchanged (it only prints "Not in
range"); with a valid index `0 ≤ a < count` it shifts every later active
entry one slot left and decrements the count; with no argument it always
ends with `count = 0`. -/
theorem clearDelay_spec (s : DG) (c : Nat) :
    (¬(signedChar c - 65 < s.imax ∧ 0 ≤ signedChar c - 65) → ClearDelay s (some c) = s)
  ∧ ((signedChar c - 65 < s.imax ∧ 0 ≤ signedChar c - 65) →
      (ClearDelay s (some c)).imax = s.imax - 1
      ∧ ∀ k : Int, 0 ≤ k → k < s.imax - 1 →
          (ClearDelay s (some c)).delays k
            = (if k < signedChar c - 65 then s.delays k else s.delays (k + 1))
          ∧ (ClearDelay s (some c)).dout k
            = (if k < signedChar c - 65 then s.dout k else s.dout (k + 1)))
  ∧ (ClearDelay s none).imax = 0 := by
  refine ⟨clear_out_of_range s c, fun h => ⟨clear_in_range_imax s c h, ?_⟩, rfl⟩
  intro k hk0 hk1
  constructor
  · rw [clear_in_range_delays s c h]
    by_cases hka : k < signedChar c - 65
    · rw [if_neg (by omega), if_pos hka]
    · rw [if_pos ⟨by omega, by omega⟩, if_neg hka]
  · rw [clear_in_range_dout s c h]
    by_cases hka : k < signedChar c - 65
    · rw [if_neg (by omega), if_pos hka]
    · rw [if_pos ⟨by omega, by omega⟩, if_neg hka]

/-- Witness for C8: on the example schedule, clearing label Z is out of
range and is a no-op; clearing label B removes entry 1 and shifts entry 2
into its place; clearing with no argument empties the list. -/
theorem clearDelay_spec_witness :
    ClearDelay armed0 (some 90) = armed0
  ∧ (ClearDelay armed0 (some 66)).imax = armed0.imax - 1
  ∧ (ClearDelay armed0 (some 66)).delays 1 = armed0.delays 2
  ∧ (ClearDelay armed0 none).imax = 0 := by
  refine ⟨(clearDelay_spec armed0 90).1 (by decide),
    ((clearDelay_spec armed0 66).2.1 (by decide)).1, ?_,
    (clearDelay_spec armed0 90).2.2⟩
  have h := (((clearDelay_spec armed0 66).2.1 (by decide)).2 1 (by decide) (by decide)).1
  rw [if_neg (by decide)] at h
  exact h

/-- C9 (counterexample): `MicrosToTicks` performs no clamping of any kind.
At input 0 microseconds the unsigned 32-bit subtraction of the timer offset
wraps around: the result is 2^32 - 58 = 4294967238, far outside the 16-bit
tick range, falsifying the claim that the returned value always lies within
the timer's tick range. -/
theorem microsToTicks_wraps_at_zero :
    MicrosToTicks 0 = some 4294967238 ∧ ¬(4294967238 ≤ 65535) := by
  refine ⟨?_, by norm_num⟩
  unfold MicrosToTicks ulongCast clock TimerOffset
  have hx : (0 : ℚ) * ((16000 : Nat) : ℚ) / 1000 + 1/2 = 1/2 := by norm_num
  rw [hx]
  rw [if_pos (by constructor <;> norm_num)]
  rw [show ⌊(1/2 : ℚ)⌋ = 0 from by
    rw [Int.floor_eq_iff]
    constructor <;> norm_num]
  rw [Option.map_some']
  decide

/-- C9 (amended): `MicrosToTicks` computes
`round-half-up(micros * clockKHz / 1000) - TIMER_OFFSET` in unsigned 32-bit
arithmetic with NO clamping.  Whenever the rounded value lies in
`[58, 65593]` — so that the subtraction does not wrap and the result fits
the 16-bit tick range — the returned tick equals the rounded value minus the
offset and is at most 65535; outside that window nothing constrains the
result to the tick range (see the counterexample at 0). -/
theorem microsToTicks_no_clamp_in_range (micro : ℚ)
    (h1 : 58 ≤ roundHalfUp (micro * (clock : ℚ) / 1000))
    (h2 : roundHalfUp (micro * (clock : ℚ) / 1000) ≤ 65593) :
    MicrosToTicks micro = some (roundHalfUp (micro * (clock : ℚ) / 1000) - 58).toNat
  ∧ (roundHalfUp (micro * (clock : ℚ) / 1000) - 58).toNat ≤ 65535 := by
  unfold roundHalfUp at h1 h2 ⊢
  unfold MicrosToTicks ulongCast
  have hx0 : (0 : ℚ) ≤ micro * (clock : ℚ) / 1000 + 1/2 := by
    have h3 := Int.le_floor.mp h1
    push_cast at h3
    linarith
  have hx1 : micro * (clock : ℚ) / 1000 + 1/2 < 4294967296 := by
    have h3 := Int.lt_floor_add_one (micro * (clock : ℚ) / 1000 + 1/2)
    have h4 : (⌊micro * (clock : ℚ) / 1000 + 1/2⌋ : ℚ) ≤ 65593 := by exact_mod_cast h2
    linarith
  rw [if_pos ⟨hx0, hx1⟩, Option.map_some']
  constructor
  · have h7 : (Int.toNat ⌊micro * (clock : ℚ) / 1000 + 1/2⌋ + 4294967296 - TimerOffset)
        % 4294967296 = (⌊micro * (clock : ℚ) / 1000 + 1/2⌋ - 58).toNat := by
      unfold TimerOffset
      omega
    rw [h7]
  · omega

/-- Witness for C9 (amended): 100 microseconds rounds to 1600 ticks raw,
returning tick 1542, inside the timer range. -/
theorem microsToTicks_no_clamp_in_range_witness :
    MicrosToTicks 100 = some (roundHalfUp ((100 : ℚ) * (clock : ℚ) / 1000) - 58).toNat
  ∧ (roundHalfUp ((100 : ℚ) * (clock : ℚ) / 1000) - 58).toNat ≤ 65535 := by
  have hr : roundHalfUp ((100 : ℚ) * (clock : ℚ) / 1000) = 1600 := by
    unfold roundHalfUp clock
    have hx : (100 : ℚ) * ((16000 : Nat) : ℚ) / 1000 + 1/2 = 3201/2 := by
      push_cast
      norm_num
    rw [hx]
    rw [Int.floor_eq_iff]
    constructor <;> norm_num
  exact microsToTicks_no_clamp_in_range 100 (by rw [hr]; norm_num) (by rw [hr]; norm_num)

/-- Unfolding equation for `SaveDelays`. -/
theorem SaveDelays_def (s : DG) (rom : Nat → Nat) :
    SaveDelays s rom
      = saveLoop s (Function.update rom 0 ((s.imax % 65536).toNat)) 0 2 s.imax.toNat := rfl

/-- Unfolding equation for `LoadDelays`. -/
theorem LoadDelays_def (s : DG) (rom : Nat → Nat) :
    LoadDelays s rom
      = loadLoop rom 0 2 { s with imax := toInt16 (rom 0) } (toInt16 (rom 0)).toNat := rfl

/-- C10: for every list state with `0 ≤ count ≤ capacity` (and cell values
representable in their 16-bit C types, as they always are on the hardware),
`SaveDelays` followed by `LoadDelays` against the same unmodified store
restores the count and every active `(tickOffset, outputPattern)` pair
exactly. -/
theorem saveLoad_roundTrip (s : DG) (rom : Nat → Nat) (h0 : 0 ≤ s.imax) (h10 : s.imax ≤ 10)
    (hvals : ∀ k : Int, 0 ≤ k → k < s.imax → s.delays k < 65536 ∧ s.dout k < 65536) :
    (LoadDelays s (SaveDelays s rom)).imax = s.imax
  ∧ ∀ k : Int, 0 ≤ k → k < s.imax →
      (LoadDelays s (SaveDelays s rom)).delays k = s.delays k
      ∧ (LoadDelays s (SaveDelays s rom)).dout k = s.dout k := by
  have hrom0 : SaveDelays s rom 0 = (s.imax % 65536).toNat := by
    rw [SaveDelays_def, saveLoop_preserve s _ _ _ _ _ (by omega), Function.update_same]
  have him : toInt16 (SaveDelays s rom 0) = s.imax := by
    rw [hrom0]
    unfold toInt16
    rw [if_pos (by omega)]
    omega
  rw [LoadDelays_def, him]
  refine ⟨by rw [loadLoop_imax], ?_⟩
  intro k hk0 hk1
  constructor
  · rw [loadLoop_delays, if_pos ⟨hk0, by omega⟩]
    have hk : (k - 0).toNat = k.toNat := by omega
    rw [hk, SaveDelays_def]
    have hg := (saveLoop_get s s.imax.toNat
      (Function.update rom 0 ((s.imax % 65536).toNat)) 0 2 k.toNat (by omega)).1
    rw [hg]
    have hkk : (0 : Int) + (k.toNat : Int) = k := by omega
    rw [hkk]
    have hv := (hvals k hk0 hk1).1
    omega
  · rw [loadLoop_dout, if_pos ⟨hk0, by omega⟩]
    have hk : (k - 0).toNat = k.toNat := by omega
    rw [hk, SaveDelays_def]
    have hg := (saveLoop_get s s.imax.toNat
      (Function.update rom 0 ((s.imax % 65536).toNat)) 0 2 k.toNat (by omega)).2
    rw [hg]
    have hkk : (0 : Int) + (k.toNat : Int) = k := by omega
    rw [hkk]
    have hv := (hvals k hk0 hk1).2
    omega

/-- Witness for C10: save/load of the example schedule over a zeroed store
restores the count and entry 2. -/
theorem saveLoad_roundTrip_witness :
    (LoadDelays armed0 (SaveDelays armed0 (fun _ => 0))).imax = armed0.imax
  ∧ (LoadDelays armed0 (SaveDelays armed0 (fun _ => 0))).delays 2 = armed0.delays 2
  ∧ (LoadDelays armed0 (SaveDelays armed0 (fun _ => 0))).dout 2 = armed0.dout 2 := by
  have h := saveLoad_roundTrip armed0 (fun _ => 0) (by decide) (by decide)
    (fun k hk0 hk1 => by
      have h4 : armed0.imax = 4 := rfl
      rw [h4] at hk1
      interval_cases k <;> exact ⟨by decide, by decide⟩)
  exact ⟨h.1, (h.2 2 (by decide) (by decide)).1, (h.2 2 (by decide) (by decide)).2⟩

end DG8
